import Mathlib

/-!
Shallow embedding of the circular-buffer backed containers of the `ods`
repository (crate `array_list`), together with proofs of the specified
properties.

Embedding conventions:
* A Rust boxed slice of optional slots becomes a Lean list of optionals;
  reading a slot is modelled by `List.getD _ _ none` and writing by
  `List.set`.
* `allocate_with(n)` in the source produces uninitialized memory via
  `Vec::set_len`: the `n` fresh slots hold indeterminate contents.  Two
  models of allocation appear below.  `allocate_with` is the
  specification's idealized storage model (fresh slot = empty marker);
  the operations built on it are adequate for every property that depends
  only on slots the code itself writes or reads inside the logical
  window.  `allocate_with_uninit` is the faithful model: it takes the
  allocation's indeterminate contents as an explicit parameter, and the
  variants `resizeU`/`addU` built on it decide the property that slots
  outside the window are empty after a reallocation — which the idealized
  model would assume rather than check.
* A Rust panic (index out of bounds, remainder by zero, integer underflow,
  explicit panic / unimplemented) is modelled by returning `none` from an
  `Option`-valued operation; a normal return of value `v` is `some v`.
* Machine integers `usize` become `Nat`; the only places where wrap-around
  or underflow of `usize` matters are modelled explicitly as panics
  (debug-build semantics of overflow).
-/

namespace Ods

/-! ## Generic helpers: slot moves and loops shared by the source methods -/

/-- Rust statement form `a[dst] = a[src].take()`: read slot `src`, leave
the empty marker there, and store the read optional at slot `dst`. -/
def moveSlot {T : Type} (a : List (Option T)) (src dst : Nat) : List (Option T) :=
  (a.set src none).set dst (a.getD src none)

/-- Ascending shift loop.  For `c` iterations with `m = start, start+1, ...`:
the Rust body `a[(j + m) % cap] = a[(j + m + 1) % cap].take()`.  This is the
loop of `ArrayDeque::add` in the first-half branch (after the head was
decremented) and the loop of `ArrayDeque::remove` in the second-half branch. -/
def shiftFwd {T : Type} (j cap : Nat) : Nat → Nat → List (Option T) → List (Option T)
  | _, 0, a => a
  | start, c + 1, a =>
      shiftFwd j cap (start + 1) c (moveSlot a ((j + start + 1) % cap) ((j + start) % cap))

/-- Descending shift loop.  For `c` iterations with `m = start+c-1, ..., start`:
the Rust body `a[(j + m + 1) % cap] = a[(j + m) % cap].take()`.  This is the
loop of `ArrayDeque::add` in the second-half branch and the loop of
`ArrayDeque::remove` in the first-half branch. -/
def shiftBack {T : Type} (j cap : Nat) : Nat → Nat → List (Option T) → List (Option T)
  | _, 0, a => a
  | start, c + 1, a =>
      shiftBack j cap start c (moveSlot a ((j + start + c) % cap) ((j + start + c + 1) % cap))

/-- The copy loop of `resize`: `for k in 0..n { new_array[k] = self.a[(self.j + k) % self.capacity()].take(); }`.
The old array is threaded through because `take` vacates its slots as the
loop runs; only the new array is kept by the caller. -/
def resizeLoop {T : Type} (j cap : Nat) : Nat → Nat → List (Option T) → List (Option T) → List (Option T)
  | _, 0, _, newA => newA
  | k, c + 1, a, newA =>
      resizeLoop j cap (k + 1) c (a.set ((j + k) % cap) none)
        (newA.set k (a.getD ((j + k) % cap) none))

/-- Rust `fn allocate_with<T>(n: usize) -> Vec<Option<T>>`: a fresh buffer of
`n` slots, in the specification's idealized storage model where a fresh
slot holds the empty marker.  The source actually leaves the memory
uninitialized (`Vec::with_capacity` plus `set_len` inside `unsafe`);
see `allocate_with_uninit` for the faithful model of those contents. -/
def allocate_with (T : Type) (n : Nat) : List (Option T) :=
  List.replicate n none

/-- Faithful model of `fn allocate_with`: the source's
`Vec::with_capacity(n)` + `unsafe { set_len(n) }` returns `n` slots whose
contents are whatever the allocator left there; the parameter `junk`
records those indeterminate contents slot by slot. -/
def allocate_with_uninit {T : Type} (junk : Nat → Option T) (n : Nat) : List (Option T) :=
  (List.range n).map junk

/-! ## ArrayDeque (src/array_list/src/array_deque.rs) -/

/-- The struct `ArrayDeque<T> { a: Box<[Option<T>]>, j: usize, n: usize }`. -/
structure ArrayDeque (T : Type) where
  a : List (Option T)
  j : Nat
  n : Nat
deriving DecidableEq

namespace ArrayDeque

variable {T : Type}

/-- `ArrayDeque::new`: empty buffer, `j = 0`, `n = 0`. -/
def new : ArrayDeque T :=
  { a := allocate_with T 0, j := 0, n := 0 }

/-- `fn capacity(&self) -> usize { self.a.len() }` -/
def capacity (s : ArrayDeque T) : Nat :=
  s.a.length

/-- `fn within_bound(&self, i: usize) -> bool { i < self.n }` -/
def within_bound (s : ArrayDeque T) (i : Nat) : Bool :=
  i < s.n

/-- `fn resize(&mut self)`: allocate `max(2n, 1)` fresh slots, copy the `n`
logical elements to physical positions `0..n`, reset `j` to 0. -/
def resize (s : ArrayDeque T) : ArrayDeque T :=
  { a := resizeLoop s.j s.capacity 0 s.n s.a (allocate_with T (max (s.n * 2) 1)),
    j := 0, n := s.n }

/-- `fn size(&self) -> usize { self.n }` -/
def size (s : ArrayDeque T) : Nat :=
  s.n

/-- `fn get(&self, i: usize) -> Option<&T>`: `None` when out of logical
bounds, otherwise the content of slot `(j + i) % capacity`. -/
def get (s : ArrayDeque T) (i : Nat) : Option T :=
  if s.within_bound i then s.a.getD ((s.j + i) % s.capacity) none else none

/-- `fn set(&mut self, i: usize, x: T) -> Option<T>`: panics (modelled as the
outer `none`) when `i` is out of logical bounds, otherwise replaces slot
`(j + i) % capacity` with `Some(x)` and returns the previous slot content. -/
def set (s : ArrayDeque T) (i : Nat) (x : T) : Option (Option T × ArrayDeque T) :=
  if s.within_bound i then
    some (s.a.getD ((s.j + i) % s.capacity) none,
      { s with a := s.a.set ((s.j + i) % s.capacity) (some x) })
  else
    none

/-- `fn add(&mut self, i: usize, x: T)`: grow when `n + 1 > capacity`, then
shift the cheaper half and place `Some(x)` at slot `(j + i) % capacity`.
In the first-half branch the head is first decremented with explicit
wrap-around (`if j == 0 { capacity - 1 } else { j - 1 }`). -/
def add (s0 : ArrayDeque T) (i : Nat) (x : T) : ArrayDeque T :=
  let s := if s0.n + 1 > s0.capacity then s0.resize else s0
  if i < s.n / 2 then
    let j1 := if s.j = 0 then s.capacity - 1 else s.j - 1
    let a1 := shiftFwd j1 s.capacity 0 i s.a
    { a := a1.set ((j1 + i) % s.capacity) (some x), j := j1, n := s.n + 1 }
  else
    let a1 := shiftBack s.j s.capacity i (s.n - i) s.a
    { a := a1.set ((s.j + i) % s.capacity) (some x), j := s.j, n := s.n + 1 }

/-- `fn remove(&mut self, i: usize) -> Option<T>`.  The source is

  `let x = self.a.get_mut((self.j + i) % self.capacity())?.take();`

followed by the half-dependent shift, `self.n -= 1`, and the shrink check.
Panics of the source are modelled as the outer `none`:
* when `capacity = 0` the expression `(self.j + i) % self.capacity()`
  is a remainder by zero, which panics;
* when `n = 0` (and capacity is positive), the second-half branch computes
  the range bound `self.size() - 1`, a `usize` underflow, which panics.
The early `?`-return of the source triggers only when the physical index
reaches past the buffer, which cannot happen once `capacity > 0`; it is kept
for faithfulness.  Note the source checks the physical index, never the
logical bound `i < n`. -/
def remove (s : ArrayDeque T) (i : Nat) : Option (Option T × ArrayDeque T) :=
  if s.capacity = 0 then none
  else if s.a.length ≤ (s.j + i) % s.capacity then some (none, s)
  else
    let idx := (s.j + i) % s.capacity
    let x := s.a.getD idx none
    let a0 := s.a.set idx none
    if i < s.n / 2 then
      let a1 := shiftBack s.j s.capacity 0 i a0
      let s1 : ArrayDeque T := { a := a1, j := (s.j + 1) % s.capacity, n := s.n - 1 }
      some (x, if 3 * s1.n < s1.capacity then s1.resize else s1)
    else
      if s.n = 0 then none
      else
        let a1 := shiftFwd s.j s.capacity i (s.n - 1 - i) a0
        let s1 : ArrayDeque T := { a := a1, j := s.j, n := s.n - 1 }
        some (x, if 3 * s1.n < s1.capacity then s1.resize else s1)

/-- `fn resize(&mut self)` under the faithful allocation model: identical
to `resize` except that the fresh buffer holds the allocator's
indeterminate contents `junk` instead of idealized empty markers.  The
copy loop overwrites slots `0..n`; slots `n..len` keep `junk`. -/
def resizeU (junk : Nat → Option T) (s : ArrayDeque T) : ArrayDeque T :=
  { a := resizeLoop s.j s.capacity 0 s.n s.a (allocate_with_uninit junk (max (s.n * 2) 1)),
    j := 0, n := s.n }

/-- `fn add(&mut self, i: usize, x: T)` under the faithful allocation
model: identical to `add` except that a triggered grow allocates through
`resizeU`, keeping the allocator's indeterminate contents in the slots
the copy loop does not write. -/
def addU (junk : Nat → Option T) (s0 : ArrayDeque T) (i : Nat) (x : T) : ArrayDeque T :=
  let s := if s0.n + 1 > s0.capacity then s0.resizeU junk else s0
  if i < s.n / 2 then
    let j1 := if s.j = 0 then s.capacity - 1 else s.j - 1
    let a1 := shiftFwd j1 s.capacity 0 i s.a
    { a := a1.set ((j1 + i) % s.capacity) (some x), j := j1, n := s.n + 1 }
  else
    let a1 := shiftBack s.j s.capacity i (s.n - i) s.a
    { a := a1.set ((s.j + i) % s.capacity) (some x), j := s.j, n := s.n + 1 }

end ArrayDeque

/-! ## ArrayQueue (src/array_list/src/array_queue.rs) -/

/-- The struct `ArrayQueue<T> { a: Box<[Option<T>]>, j: usize, n: usize }`. -/
structure ArrayQueue (T : Type) where
  a : List (Option T)
  j : Nat
  n : Nat
deriving DecidableEq

namespace ArrayQueue

variable {T : Type}

/-- `ArrayQueue::new`: empty buffer, `j = 0`, `n = 0`. -/
def new : ArrayQueue T :=
  { a := allocate_with T 0, j := 0, n := 0 }

/-- `fn capacity(&self) -> usize { self.a.len() }` -/
def capacity (q : ArrayQueue T) : Nat :=
  q.a.length

/-- `fn resize(&mut self)` of `ArrayQueue`, textually the same as the deque's. -/
def resize (q : ArrayQueue T) : ArrayQueue T :=
  { a := resizeLoop q.j q.capacity 0 q.n q.a (allocate_with T (max (q.n * 2) 1)),
    j := 0, n := q.n }

/-- `fn size(&self) -> usize { self.n }` -/
def size (q : ArrayQueue T) : Nat :=
  q.n

/-- `Queue::add` for `ArrayQueue`: grow when full, write `Some(x)` at slot
`(j + n) % capacity`, increment `n`, return `true`. -/
def add (q0 : ArrayQueue T) (x : T) : Bool × ArrayQueue T :=
  let q := if q0.n + 1 > q0.capacity then q0.resize else q0
  (true, { a := q.a.set ((q.j + q.n) % q.capacity) (some x), j := q.j, n := q.n + 1 })

/-- `Queue::remove` for `ArrayQueue`: `None` when empty, otherwise take the
slot at `j`, advance `j` with wrap-around, decrement `n`. -/
def remove (q : ArrayQueue T) : Option T × ArrayQueue T :=
  if q.n = 0 then (none, q)
  else
    (q.a.getD q.j none,
      { a := q.a.set q.j none, j := (q.j + 1) % q.capacity, n := q.n - 1 })

/-- `List::add` for `ArrayQueue` is `unimplemented!()`: it panics
unconditionally (the panic is the `none` result). -/
def listAdd (_q : ArrayQueue T) (_i : Nat) (_x : T) : Option (ArrayQueue T) :=
  none

/-- `List::remove` for `ArrayQueue` is `unimplemented!()`: it panics
unconditionally (the panic is the `none` result). -/
def listRemove (_q : ArrayQueue T) (_i : Nat) : Option (Option T × ArrayQueue T) :=
  none

end ArrayQueue

/-! ## Basic lemmas about slots and wrap-around indexing -/

section SlotLemmas

variable {T : Type}

theorem getD_set_self {a : List (Option T)} {i : Nat} (h : i < a.length) (v : Option T) :
    (a.set i v).getD i none = v := by
  simp [List.getD_eq_getElem?_getD, List.getElem?_set_self h]

theorem getD_set_ne {a : List (Option T)} {i p : Nat} (h : i ≠ p) (v : Option T) :
    (a.set i v).getD p none = a.getD p none := by
  simp [List.getD_eq_getElem?_getD, List.getElem?_set_ne h]

theorem moveSlot_length (a : List (Option T)) (src dst : Nat) :
    (moveSlot a src dst).length = a.length := by
  simp [moveSlot]

theorem moveSlot_getD_dst {a : List (Option T)} {src dst : Nat} (h : dst < a.length) :
    (moveSlot a src dst).getD dst none = a.getD src none := by
  unfold moveSlot
  exact getD_set_self (by simpa using h) _

theorem moveSlot_getD_src {a : List (Option T)} {src dst : Nat}
    (hlt : src < a.length) (hne : src ≠ dst) :
    (moveSlot a src dst).getD src none = none := by
  unfold moveSlot
  rw [getD_set_ne (fun h => hne h.symm), getD_set_self hlt]

theorem moveSlot_getD_other {a : List (Option T)} {src dst p : Nat}
    (h1 : p ≠ src) (h2 : p ≠ dst) :
    (moveSlot a src dst).getD p none = a.getD p none := by
  unfold moveSlot
  rw [getD_set_ne (fun h => h2 h.symm), getD_set_ne (fun h => h1 h.symm)]

theorem mod_inj {cap j k1 k2 : Nat} (h1 : k1 < cap) (h2 : k2 < cap)
    (h : (j + k1) % cap = (j + k2) % cap) : k1 = k2 := by
  have hm : k1 % cap = k2 % cap := Nat.ModEq.add_left_cancel' j h
  rwa [Nat.mod_eq_of_lt h1, Nat.mod_eq_of_lt h2] at hm

theorem mod_surj {cap j p : Nat} (hj : j < cap) (hp : p < cap) :
    ∃ k, k < cap ∧ p = (j + k) % cap := by
  refine ⟨(cap + p - j) % cap, Nat.mod_lt _ (by omega), ?_⟩
  rw [Nat.add_mod_mod]
  have h1 : j + (cap + p - j) = cap + p := by omega
  rw [h1, Nat.add_mod_left, Nat.mod_eq_of_lt hp]

theorem mod_lt_of_pos {cap x : Nat} (h : 0 < cap) : x % cap < cap :=
  Nat.mod_lt _ h

theorem pred_mod_add {cap j : Nat} (hj : j < cap) (m : Nat) :
    ((if j = 0 then cap - 1 else j - 1) + m + 1) % cap = (j + m) % cap := by
  split
  · rename_i h0
    subst h0
    have h1 : cap - 1 + m + 1 = cap + m := by omega
    rw [h1, Nat.add_mod_left, Nat.zero_add]
  · rename_i h0
    congr 1
    omega

end SlotLemmas

/-! ## Characterization of the shift and copy loops -/

section LoopLemmas

variable {T : Type}

theorem mod_ne_of_small_diff {cap j k p : Nat} (hlt : k < p) (hd : p - k < cap) :
    (j + p) % cap ≠ (j + k) % cap := by
  intro h
  have hm : p % cap = k % cap := Nat.ModEq.add_left_cancel' j h
  have hdvd : cap ∣ p - k := (Nat.modEq_iff_dvd' (Nat.le_of_lt hlt)).mp hm.symm
  have := Nat.le_of_dvd (by omega) hdvd
  omega

theorem shiftFwd_zero (j cap start : Nat) (a : List (Option T)) :
    shiftFwd j cap start 0 a = a := rfl

theorem shiftFwd_succ (j cap start c : Nat) (a : List (Option T)) :
    shiftFwd j cap start (c + 1) a =
      shiftFwd j cap (start + 1) c (moveSlot a ((j + start + 1) % cap) ((j + start) % cap)) := rfl

theorem shiftBack_zero (j cap start : Nat) (a : List (Option T)) :
    shiftBack j cap start 0 a = a := rfl

theorem shiftBack_succ (j cap start c : Nat) (a : List (Option T)) :
    shiftBack j cap start (c + 1) a =
      shiftBack j cap start c (moveSlot a ((j + start + c) % cap) ((j + start + c + 1) % cap)) := rfl

theorem shiftFwd_length (j cap : Nat) :
    ∀ (c start : Nat) (a : List (Option T)), (shiftFwd j cap start c a).length = a.length := by
  intro c
  induction c with
  | zero => intro start a; rfl
  | succ c ih =>
      intro start a
      rw [shiftFwd_succ, ih, moveSlot_length]

theorem shiftBack_length (j cap : Nat) :
    ∀ (c start : Nat) (a : List (Option T)), (shiftBack j cap start c a).length = a.length := by
  intro c
  induction c with
  | zero => intro start a; rfl
  | succ c ih =>
      intro start a
      rw [shiftBack_succ, ih, moveSlot_length]

theorem shiftFwd_spec (j cap : Nat) :
    ∀ (c start : Nat) (a : List (Option T)), a.length = cap → start + c < cap →
      ∀ k, k < cap →
        (shiftFwd j cap start c a).getD ((j + k) % cap) none =
          if start ≤ k ∧ k < start + c then a.getD ((j + k + 1) % cap) none
          else if k = start + c ∧ 0 < c then none
          else a.getD ((j + k) % cap) none := by
  intro c
  induction c with
  | zero =>
      intro start a ha hspan k hk
      rw [shiftFwd_zero, if_neg (by omega), if_neg (by omega)]
  | succ c ih =>
      intro start a ha hspan k hk
      have hcappos : 0 < cap := by omega
      have hlen : (moveSlot a ((j + start + 1) % cap) ((j + start) % cap)).length = cap := by
        rw [moveSlot_length, ha]
      have hsrclt : (j + start + 1) % cap < a.length := by
        rw [ha]; exact mod_lt_of_pos hcappos
      have hdstlt : (j + start) % cap < a.length := by
        rw [ha]; exact mod_lt_of_pos hcappos
      rw [shiftFwd_succ, ih (start + 1) _ hlen (by omega) k hk]
      by_cases h1 : k = start
      · subst h1
        rw [if_neg (by omega), if_neg (by omega), if_pos (by omega : k ≤ k ∧ k < k + (c + 1))]
        exact moveSlot_getD_dst hdstlt
      · by_cases h2 : start + 1 ≤ k ∧ k < start + 1 + c
        · rw [if_pos h2, if_pos (by omega : start ≤ k ∧ k < start + (c + 1))]
          apply moveSlot_getD_other
          · intro hc
            have : k + 1 = start + 1 := mod_inj (by omega) (by omega) hc
            omega
          · intro hc
            have : k + 1 = start := mod_inj (by omega) (by omega) hc
            omega
        · by_cases h3 : k = start + 1 + c
          · by_cases hc0 : 0 < c
            · rw [if_neg h2, if_pos ⟨h3, hc0⟩,
                if_neg (show ¬(start ≤ k ∧ k < start + (c + 1)) by omega),
                if_pos (show k = start + (c + 1) ∧ 0 < c + 1 by omega)]
            · rw [if_neg h2, if_neg (show ¬(k = start + 1 + c ∧ 0 < c) by omega),
                if_neg (show ¬(start ≤ k ∧ k < start + (c + 1)) by omega),
                if_pos (show k = start + (c + 1) ∧ 0 < c + 1 by omega)]
              have hk1 : k = start + 1 := by omega
              subst hk1
              apply moveSlot_getD_src hsrclt
              intro hc
              have : start + 1 = start := mod_inj (by omega) (by omega) hc
              omega
          · rw [if_neg h2, if_neg (show ¬(k = start + 1 + c ∧ 0 < c) by omega),
              if_neg (show ¬(start ≤ k ∧ k < start + (c + 1)) by omega),
              if_neg (show ¬(k = start + (c + 1) ∧ 0 < c + 1) by omega)]
            apply moveSlot_getD_other
            · intro hc
              have : k = start + 1 := mod_inj (by omega) (by omega) hc
              omega
            · intro hc
              have : k = start := mod_inj (by omega) (by omega) hc
              omega

theorem shiftBack_spec (j cap start : Nat) :
    ∀ (c : Nat) (a : List (Option T)), a.length = cap → start + c < cap →
      ∀ k, k < cap →
        (shiftBack j cap start c a).getD ((j + k) % cap) none =
          if start < k ∧ k ≤ start + c then a.getD ((j + k - 1) % cap) none
          else if k = start ∧ 0 < c then none
          else a.getD ((j + k) % cap) none := by
  intro c
  induction c with
  | zero =>
      intro a ha hspan k hk
      rw [shiftBack_zero, if_neg (by omega), if_neg (by omega)]
  | succ c ih =>
      intro a ha hspan k hk
      have hcappos : 0 < cap := by omega
      have hlen : (moveSlot a ((j + start + c) % cap) ((j + start + c + 1) % cap)).length = cap := by
        rw [moveSlot_length, ha]
      have hsrclt : (j + start + c) % cap < a.length := by
        rw [ha]; exact mod_lt_of_pos hcappos
      have hdstlt : (j + start + c + 1) % cap < a.length := by
        rw [ha]; exact mod_lt_of_pos hcappos
      rw [shiftBack_succ, ih _ hlen (by omega) k hk]
      by_cases h1 : start < k ∧ k ≤ start + c
      · rw [if_pos h1, if_pos (show start < k ∧ k ≤ start + (c + 1) by omega)]
        have hkm : j + k - 1 = j + (k - 1) := by omega
        rw [hkm]
        apply moveSlot_getD_other
        · intro hc
          rw [Nat.add_assoc] at hc
          have : k - 1 = start + c := mod_inj (by omega) (by omega) hc
          omega
        · intro hc
          rw [Nat.add_assoc, Nat.add_assoc] at hc
          have : k - 1 = start + (c + 1) := mod_inj (by omega) (by omega) hc
          omega
      · by_cases h2 : k = start + c + 1
        · rw [if_neg h1, if_neg (show ¬(k = start ∧ 0 < c) by omega),
            if_pos (show start < k ∧ k ≤ start + (c + 1) by omega)]
          have hkm : j + k - 1 = j + start + c := by omega
          have hkj : j + k = j + start + c + 1 := by omega
          rw [hkm, hkj]
          exact moveSlot_getD_dst hdstlt
        · by_cases h3 : k = start
          · subst h3
            by_cases hc0 : 0 < c
            · rw [if_neg h1, if_pos ⟨rfl, hc0⟩,
                if_neg (show ¬(k < k ∧ k ≤ k + (c + 1)) by omega),
                if_pos (show k = k ∧ 0 < c + 1 by omega)]
            · rw [if_neg h1, if_neg (show ¬(k = k ∧ 0 < c) by omega),
                if_neg (show ¬(k < k ∧ k ≤ k + (c + 1)) by omega),
                if_pos (show k = k ∧ 0 < c + 1 by omega)]
              have hc0' : c = 0 := by omega
              subst hc0'
              simp only [Nat.add_zero]
              apply moveSlot_getD_src
              · simpa using hsrclt
              · intro hc
                have : k = k + 1 := mod_inj (by omega) (by omega) hc
                omega
          · rw [if_neg h1, if_neg (show ¬(k = start ∧ 0 < c) by omega),
              if_neg (show ¬(start < k ∧ k ≤ start + (c + 1)) by omega),
              if_neg (show ¬(k = start ∧ 0 < c + 1) by omega)]
            apply moveSlot_getD_other
            · intro hc
              rw [Nat.add_assoc] at hc
              have : k = start + c := mod_inj (by omega) (by omega) hc
              omega
            · intro hc
              rw [Nat.add_assoc, Nat.add_assoc] at hc
              have : k = start + (c + 1) := mod_inj (by omega) (by omega) hc
              omega

theorem resizeLoop_zero (j cap k : Nat) (a newA : List (Option T)) :
    resizeLoop j cap k 0 a newA = newA := rfl

theorem resizeLoop_succ (j cap k c : Nat) (a newA : List (Option T)) :
    resizeLoop j cap k (c + 1) a newA =
      resizeLoop j cap (k + 1) c (a.set ((j + k) % cap) none)
        (newA.set k (a.getD ((j + k) % cap) none)) := rfl

theorem resizeLoop_length (j cap : Nat) :
    ∀ (c k : Nat) (a newA : List (Option T)),
      (resizeLoop j cap k c a newA).length = newA.length := by
  intro c
  induction c with
  | zero => intro k a newA; rfl
  | succ c ih =>
      intro k a newA
      rw [resizeLoop_succ, ih, List.length_set]

theorem resizeLoop_spec (j cap : Nat) :
    ∀ (c k : Nat) (a newA : List (Option T)), c ≤ cap →
      ∀ p, p < newA.length →
        (resizeLoop j cap k c a newA).getD p none =
          if k ≤ p ∧ p < k + c then a.getD ((j + p) % cap) none
          else newA.getD p none := by
  intro c
  induction c with
  | zero =>
      intro k a newA hc p hp
      rw [resizeLoop_zero, if_neg (by omega)]
  | succ c ih =>
      intro k a newA hc p hp
      have hp' : p < (newA.set k (a.getD ((j + k) % cap) none)).length := by
        rwa [List.length_set]
      rw [resizeLoop_succ, ih (k + 1) _ _ (by omega) p hp']
      by_cases h1 : p = k
      · subst h1
        rw [if_neg (by omega), if_pos (by omega : p ≤ p ∧ p < p + (c + 1))]
        exact getD_set_self hp _
      · by_cases h2 : k + 1 ≤ p ∧ p < k + 1 + c
        · rw [if_pos h2, if_pos (show k ≤ p ∧ p < k + (c + 1) by omega)]
          exact getD_set_ne (Ne.symm (mod_ne_of_small_diff (by omega) (by omega))) _
        · rw [if_neg h2, if_neg (show ¬(k ≤ p ∧ p < k + (c + 1)) by omega),
            getD_set_ne (fun hh => h1 hh.symm)]

end LoopLemmas

/-! ## The abstraction relation for ArrayDeque

A deque state represents the mathematical list `L` when `n` matches the
length of `L`, the window slot for logical position `k` holds exactly the
`k`-th element of `L`, and every slot outside the window holds the empty
marker.  These are the data-model invariants of the specification. -/

section DequeAbs

variable {T : Type}

structure Abs (s : ArrayDeque T) (L : List T) : Prop where
  hn : s.n = L.length
  hcap : s.n ≤ s.a.length
  hj : s.a.length = 0 ∨ s.j < s.a.length
  hwin : ∀ k, k < s.n → s.a.getD ((s.j + k) % s.a.length) none = L[k]?
  hout : ∀ p, p < s.a.length →
    (∀ k, k < s.n → p ≠ (s.j + k) % s.a.length) → s.a.getD p none = none

theorem abs_new : Abs (ArrayDeque.new : ArrayDeque T) [] := by
  refine ⟨rfl, by simp [ArrayDeque.new, allocate_with], ?_, ?_, ?_⟩
  · left; simp [ArrayDeque.new, allocate_with]
  · intro k hk; simp [ArrayDeque.new, allocate_with] at hk
  · intro p hp; simp [ArrayDeque.new, allocate_with] at hp

theorem get_abs {s : ArrayDeque T} {L : List T} (h : Abs s L) (i : Nat) :
    s.get i = L[i]? := by
  by_cases hi : i < s.n
  · have hg : s.get i = s.a.getD ((s.j + i) % s.a.length) none := by
      simp [ArrayDeque.get, ArrayDeque.within_bound, ArrayDeque.capacity, hi]
    rw [hg]
    exact h.hwin i hi
  · have hg : s.get i = none := by
      simp [ArrayDeque.get, ArrayDeque.within_bound, hi]
    rw [hg]
    exact (List.getElem?_eq_none (by have := h.hn; omega)).symm

theorem set_eq {s : ArrayDeque T} {L : List T} (h : Abs s L) {i : Nat} (hi : i < s.n) (x : T) :
    s.set i x = some (L[i]?, { s with a := s.a.set ((s.j + i) % s.a.length) (some x) }) ∧
      Abs { s with a := s.a.set ((s.j + i) % s.a.length) (some x) } (L.set i x) := by
  have hcapn : s.n ≤ s.a.length := h.hcap
  have hcappos : 0 < s.a.length := by omega
  have hiL : i < L.length := by have := h.hn; omega
  have hposlt : (s.j + i) % s.a.length < s.a.length := mod_lt_of_pos hcappos
  constructor
  · have hs : s.set i x = some (s.a.getD ((s.j + i) % s.a.length) none,
        { s with a := s.a.set ((s.j + i) % s.a.length) (some x) }) := by
      simp [ArrayDeque.set, ArrayDeque.within_bound, ArrayDeque.capacity, hi]
    rw [hs, h.hwin i hi]
  · refine ⟨?_, ?_, ?_, ?_, ?_⟩
    · show s.n = (L.set i x).length
      rw [List.length_set]
      exact h.hn
    · show s.n ≤ (s.a.set ((s.j + i) % s.a.length) (some x)).length
      rw [List.length_set]
      exact h.hcap
    · show (s.a.set ((s.j + i) % s.a.length) (some x)).length = 0 ∨
        s.j < (s.a.set ((s.j + i) % s.a.length) (some x)).length
      rw [List.length_set]
      exact h.hj
    · intro k hk
      have hk' : k < s.n := hk
      show (s.a.set ((s.j + i) % s.a.length) (some x)).getD
        ((s.j + k) % (s.a.set ((s.j + i) % s.a.length) (some x)).length) none = (L.set i x)[k]?
      rw [List.length_set]
      by_cases hki : k = i
      · subst hki
        rw [getD_set_self hposlt, List.getElem?_set_self hiL]
      · have hne : (s.j + i) % s.a.length ≠ (s.j + k) % s.a.length := by
          intro hc
          exact hki (mod_inj (by omega) (by omega) hc).symm
        rw [getD_set_ne hne, h.hwin k hk', List.getElem?_set_ne (fun hc => hki hc.symm)]
    · intro p hp hfar
      have hp' : p < s.a.length := by
        have := hp
        rwa [List.length_set] at this
      have hfar' : ∀ k, k < s.n → p ≠ (s.j + k) % s.a.length := by
        intro k hk
        have := hfar k hk
        rwa [List.length_set] at this
      show (s.a.set ((s.j + i) % s.a.length) (some x)).getD p none = none
      have hne : (s.j + i) % s.a.length ≠ p := by
        intro hc
        exact hfar' i hi hc.symm
      rw [getD_set_ne hne]
      exact h.hout p hp' hfar'

theorem resize_spec {s : ArrayDeque T} {L : List T} (h : Abs s L) :
    Abs s.resize L ∧ s.resize.a.length = max (s.n * 2) 1 ∧ s.resize.j = 0 ∧
      s.resize.n = s.n ∧ (∀ k, k < s.n → s.resize.a.getD k none = L[k]?) := by
  have hrj : s.resize.j = 0 := rfl
  have hrn : s.resize.n = s.n := rfl
  have hlen1 : (1 : Nat) ≤ max (s.n * 2) 1 := le_max_right _ _
  have hnle : s.n ≤ max (s.n * 2) 1 := by
    rcases Nat.eq_zero_or_pos s.n with h0 | h0
    · omega
    · exact le_trans (by omega) (le_max_left _ _)
  have hares : s.resize.a = resizeLoop s.j s.a.length 0 s.n s.a
      (allocate_with T (max (s.n * 2) 1)) := rfl
  have halen : (allocate_with T (max (s.n * 2) 1)).length = max (s.n * 2) 1 := by
    simp [allocate_with]
  have hreslen : s.resize.a.length = max (s.n * 2) 1 := by
    rw [hares, resizeLoop_length, halen]
  have hspec : ∀ p, p < max (s.n * 2) 1 →
      s.resize.a.getD p none =
        if 0 ≤ p ∧ p < 0 + s.n then s.a.getD ((s.j + p) % s.a.length) none
        else (allocate_with T (max (s.n * 2) 1)).getD p none := by
    intro p hp
    rw [hares]
    exact resizeLoop_spec s.j s.a.length s.n 0 s.a _ h.hcap p (by rw [halen]; exact hp)
  have hwinres : ∀ k, k < s.n → s.resize.a.getD k none = L[k]? := by
    intro k hk
    rw [hspec k (by omega), if_pos (by omega), h.hwin k hk]
  refine ⟨⟨?_, ?_, ?_, ?_, ?_⟩, hreslen, hrj, hrn, hwinres⟩
  · rw [hrn]
    exact h.hn
  · rw [hrn, hreslen]
    exact hnle
  · rw [hreslen]
    omega
  · intro k hk
    rw [hrn] at hk
    rw [hrj]
    have hklt : k < max (s.n * 2) 1 := by omega
    have hmod : (0 + k) % s.resize.a.length = k := by
      rw [hreslen, Nat.zero_add, Nat.mod_eq_of_lt hklt]
    rw [hmod]
    exact hwinres k hk
  · intro p hp hfar
    rw [hrj, hrn] at hfar
    rw [hreslen] at hp
    have hge : s.n ≤ p := by
      by_contra hlt
      refine hfar p (by omega) ?_
      show p = (0 + p) % s.resize.a.length
      rw [hreslen, Nat.zero_add, Nat.mod_eq_of_lt hp]
    rw [hspec p hp, if_neg (by omega)]
    simp [allocate_with, List.getD_eq_getElem?_getD, List.getElem?_replicate, hp]

end DequeAbs

/-! ## Index lemmas for the reference list operations -/

section RefList

variable {T : Type}

theorem getElem?_insertIdx (L : List T) (i k : Nat) (x : T) (hi : i ≤ L.length) :
    (L.insertIdx i x)[k]? =
      if k < i then L[k]? else if k = i then some x else L[k - 1]? := by
  induction L generalizing i k with
  | nil =>
      have h0 : i = 0 := by simpa using hi
      subst h0
      rw [List.insertIdx_zero]
      rcases k with _ | k
      · simp
      · simp
  | cons hd tl ih =>
      rcases i with _ | i
      · rw [List.insertIdx_zero]
        rcases k with _ | k
        · simp
        · simp [Nat.succ_sub_one]
      · rw [List.insertIdx_succ_cons]
        rcases k with _ | k
        · simp
        · rw [List.getElem?_cons_succ, ih i k (by simpa using hi)]
          by_cases h1 : k < i
          · rw [if_pos h1, if_pos (by omega), List.getElem?_cons_succ]
          · by_cases h2 : k = i
            · rw [if_neg h1, if_pos h2, if_neg (by omega), if_pos (by omega)]
            · rw [if_neg h1, if_neg h2, if_neg (by omega), if_neg (by omega)]
              have hk1 : k + 1 - 1 = (k - 1) + 1 := by omega
              rw [hk1, List.getElem?_cons_succ]

end RefList

/-! ## The add operation preserves the abstraction -/

section DequeAdd

variable {T : Type}

theorem add_body_abs {s1 : ArrayDeque T} {L : List T} (h1 : Abs s1 L) {i : Nat}
    (hi : i ≤ L.length) (x : T) (hroom : s1.n + 1 ≤ s1.a.length) :
    Abs (if i < s1.n / 2 then
        { a := (shiftFwd (if s1.j = 0 then s1.a.length - 1 else s1.j - 1) s1.a.length 0 i s1.a).set
            (((if s1.j = 0 then s1.a.length - 1 else s1.j - 1) + i) % s1.a.length) (some x),
          j := if s1.j = 0 then s1.a.length - 1 else s1.j - 1, n := s1.n + 1 }
      else
        { a := (shiftBack s1.j s1.a.length i (s1.n - i) s1.a).set
            ((s1.j + i) % s1.a.length) (some x),
          j := s1.j, n := s1.n + 1 }) (L.insertIdx i x) := by
  have hn := h1.hn
  have hcap := h1.hcap
  have hcappos : 0 < s1.a.length := by omega
  have hj1 : s1.j < s1.a.length := by rcases h1.hj with h0 | h0 <;> omega
  have hiN : i ≤ s1.n := by omega
  have hLlen : (L.insertIdx i x).length = L.length + 1 := List.length_insertIdx i L hi
  by_cases hb : i < s1.n / 2
  · rw [if_pos hb]
    have hN2 : 2 ≤ s1.n := by omega
    have hj2lt : (if s1.j = 0 then s1.a.length - 1 else s1.j - 1) < s1.a.length := by
      split <;> omega
    have hsucc : ∀ m, ((if s1.j = 0 then s1.a.length - 1 else s1.j - 1) + m + 1) % s1.a.length =
        (s1.j + m) % s1.a.length := pred_mod_add hj1
    have hA1len : (shiftFwd (if s1.j = 0 then s1.a.length - 1 else s1.j - 1)
        s1.a.length 0 i s1.a).length = s1.a.length := shiftFwd_length _ _ _ _ _
    have hspecF := shiftFwd_spec (if s1.j = 0 then s1.a.length - 1 else s1.j - 1)
      s1.a.length i 0 s1.a rfl (by omega)
    have hposlt : ((if s1.j = 0 then s1.a.length - 1 else s1.j - 1) + i) % s1.a.length <
        (shiftFwd (if s1.j = 0 then s1.a.length - 1 else s1.j - 1) s1.a.length 0 i s1.a).length := by
      rw [hA1len]; exact mod_lt_of_pos hcappos
    refine ⟨?_, ?_, ?_, ?_, ?_⟩
    · show s1.n + 1 = (L.insertIdx i x).length
      omega
    · show s1.n + 1 ≤ (List.set _ _ _).length
      rw [List.length_set, hA1len]
      exact hroom
    · show (List.set _ _ _).length = 0 ∨ _ < (List.set _ _ _).length
      rw [List.length_set, hA1len]
      right
      exact hj2lt
    · intro k hk
      have hk' : k < s1.n + 1 := hk
      show (List.set _ _ _).getD ((_ + k) % (List.set _ _ _).length) none = (L.insertIdx i x)[k]?
      rw [List.length_set, hA1len, getElem?_insertIdx L i k x hi]
      by_cases hki : k = i
      · subst hki
        rw [getD_set_self hposlt, if_neg (by omega), if_pos rfl]
      · have hkC : k < s1.a.length := by omega
        have hiC : i < s1.a.length := by omega
        have hne : ((if s1.j = 0 then s1.a.length - 1 else s1.j - 1) + i) % s1.a.length ≠
            ((if s1.j = 0 then s1.a.length - 1 else s1.j - 1) + k) % s1.a.length := by
          intro hc
          exact hki (mod_inj hkC hiC hc.symm)
        rw [getD_set_ne hne, hspecF k hkC]
        by_cases hlt : k < i
        · rw [if_pos (by omega : 0 ≤ k ∧ k < 0 + i), if_pos hlt]
          have hm := hsucc k
          rw [hm, h1.hwin k (by omega)]
        · have hgt : i < k := by omega
          rw [if_neg (by omega : ¬(0 ≤ k ∧ k < 0 + i)),
            if_neg (by omega : ¬(k = 0 + i ∧ 0 < i)),
            if_neg (by omega : ¬ k < i), if_neg hki]
          have hsplit : (if s1.j = 0 then s1.a.length - 1 else s1.j - 1) + k =
              (if s1.j = 0 then s1.a.length - 1 else s1.j - 1) + (k - 1) + 1 := by omega
          rw [hsplit, hsucc (k - 1), h1.hwin (k - 1) (by omega)]
    · intro p hp hfar
      have hpC : p < s1.a.length := by
        have := hp
        rwa [List.length_set, hA1len] at this
      obtain ⟨k0, hk0C, hpk⟩ := mod_surj hj2lt hpC
      have hfar' : ∀ k, k < s1.n + 1 →
          p ≠ ((if s1.j = 0 then s1.a.length - 1 else s1.j - 1) + k) % s1.a.length := by
        intro k hk
        have hf := hfar k hk
        rwa [List.length_set, hA1len] at hf
      have hk0big : s1.n + 1 ≤ k0 := by
        by_contra hsmall
        exact hfar' k0 (by omega) hpk
      have hnei : ((if s1.j = 0 then s1.a.length - 1 else s1.j - 1) + i) % s1.a.length ≠ p := by
        intro hc
        rw [hpk] at hc
        have := mod_inj (by omega) hk0C hc
        omega
      show (List.set _ _ _).getD p none = none
      rw [getD_set_ne hnei, hpk, hspecF k0 hk0C,
        if_neg (by omega : ¬(0 ≤ k0 ∧ k0 < 0 + i)),
        if_neg (by omega : ¬(k0 = 0 + i ∧ 0 < i))]
      have hsplit : (if s1.j = 0 then s1.a.length - 1 else s1.j - 1) + k0 =
          (if s1.j = 0 then s1.a.length - 1 else s1.j - 1) + (k0 - 1) + 1 := by omega
      rw [hsplit, hsucc (k0 - 1)]
      refine h1.hout _ (mod_lt_of_pos hcappos) ?_
      intro k hk hc
      have := mod_inj (by omega) (by omega) hc
      omega
  · rw [if_neg hb]
    have hA1len : (shiftBack s1.j s1.a.length i (s1.n - i) s1.a).length = s1.a.length :=
      shiftBack_length _ _ _ _ _
    have hspecB := shiftBack_spec s1.j s1.a.length i (s1.n - i) s1.a rfl (by omega)
    have hposlt : (s1.j + i) % s1.a.length <
        (shiftBack s1.j s1.a.length i (s1.n - i) s1.a).length := by
      rw [hA1len]; exact mod_lt_of_pos hcappos
    refine ⟨?_, ?_, ?_, ?_, ?_⟩
    · show s1.n + 1 = (L.insertIdx i x).length
      omega
    · show s1.n + 1 ≤ (List.set _ _ _).length
      rw [List.length_set, hA1len]
      exact hroom
    · show (List.set _ _ _).length = 0 ∨ s1.j < (List.set _ _ _).length
      rw [List.length_set, hA1len]
      right
      exact hj1
    · intro k hk
      have hk' : k < s1.n + 1 := hk
      show (List.set _ _ _).getD ((s1.j + k) % (List.set _ _ _).length) none =
        (L.insertIdx i x)[k]?
      rw [List.length_set, hA1len, getElem?_insertIdx L i k x hi]
      by_cases hki : k = i
      · subst hki
        rw [getD_set_self hposlt, if_neg (by omega), if_pos rfl]
      · have hkC : k < s1.a.length := by omega
        have hiC : i < s1.a.length := by omega
        have hne : (s1.j + i) % s1.a.length ≠ (s1.j + k) % s1.a.length := by
          intro hc
          exact hki (mod_inj hkC hiC hc.symm)
        rw [getD_set_ne hne, hspecB k hkC]
        by_cases hlt : k < i
        · rw [if_neg (by omega : ¬(i < k ∧ k ≤ i + (s1.n - i))),
            if_neg (by omega : ¬(k = i ∧ 0 < s1.n - i)),
            if_pos hlt]
          exact h1.hwin k (by omega)
        · have hgt : i < k := by omega
          rw [if_pos (by omega : i < k ∧ k ≤ i + (s1.n - i)),
            if_neg (by omega : ¬ k < i), if_neg hki]
          have hsplit : s1.j + k - 1 = s1.j + (k - 1) := by omega
          rw [hsplit]
          exact h1.hwin (k - 1) (by omega)
    · intro p hp hfar
      have hpC : p < s1.a.length := by
        have := hp
        rwa [List.length_set, hA1len] at this
      obtain ⟨k0, hk0C, hpk⟩ := mod_surj hj1 hpC
      have hfar' : ∀ k, k < s1.n + 1 → p ≠ (s1.j + k) % s1.a.length := by
        intro k hk
        have hf := hfar k hk
        rwa [List.length_set, hA1len] at hf
      have hk0big : s1.n + 1 ≤ k0 := by
        by_contra hsmall
        exact hfar' k0 (by omega) hpk
      have hnei : (s1.j + i) % s1.a.length ≠ p := by
        intro hc
        rw [hpk] at hc
        have := mod_inj (by omega) hk0C hc
        omega
      show (List.set _ _ _).getD p none = none
      rw [getD_set_ne hnei, hpk, hspecB k0 hk0C,
        if_neg (by omega : ¬(i < k0 ∧ k0 ≤ i + (s1.n - i))),
        if_neg (by omega : ¬(k0 = i ∧ 0 < s1.n - i))]
      refine h1.hout _ (mod_lt_of_pos hcappos) ?_
      intro k hk hc
      have := mod_inj hk0C (by omega) hc
      omega

theorem add_abs {s : ArrayDeque T} {L : List T} (h : Abs s L) {i : Nat}
    (hi : i ≤ L.length) (x : T) : Abs (s.add i x) (L.insertIdx i x) := by
  by_cases hg : s.n + 1 > s.a.length
  · have hr := resize_spec h
    have hroom : s.resize.n + 1 ≤ s.resize.a.length := by
      rw [hr.2.2.2.1, hr.2.1]
      rcases Nat.eq_zero_or_pos s.n with h0 | h0
      · simp [h0]
      · exact le_trans (by omega) (le_max_left _ _)
    have hbody := add_body_abs hr.1 hi x hroom
    show Abs (ArrayDeque.add s i x) _
    simp only [ArrayDeque.add, ArrayDeque.capacity]
    rw [if_pos hg]
    exact hbody
  · have hroom : s.n + 1 ≤ s.a.length := by omega
    have hbody := add_body_abs h hi x hroom
    show Abs (ArrayDeque.add s i x) _
    simp only [ArrayDeque.add, ArrayDeque.capacity]
    rw [if_neg hg]
    exact hbody

end DequeAdd

/-! ## The remove operation on a valid index -/

section DequeRemove

variable {T : Type}

theorem remove_eq {s : ArrayDeque T} {L : List T} (h : Abs s L) {i : Nat} (hi : i < s.n) :
    ∃ s1 : ArrayDeque T, Abs s1 (L.eraseIdx i) ∧ s1.n = s.n - 1 ∧ s1.a.length = s.a.length ∧
      s.remove i = some (L[i]?, if 3 * s1.n < s1.a.length then s1.resize else s1) := by
  have hn := h.hn
  have hcap := h.hcap
  have hcappos : 0 < s.a.length := by omega
  have hj1 : s.j < s.a.length := by rcases h.hj with h0 | h0 <;> omega
  have hiL : i < L.length := by omega
  have hidxlt : (s.j + i) % s.a.length < s.a.length := mod_lt_of_pos hcappos
  have herlen : (L.eraseIdx i).length = L.length - 1 := List.length_eraseIdx_of_lt hiL
  have ha0len : (s.a.set ((s.j + i) % s.a.length) none).length = s.a.length := List.length_set _ _ _
  have hiC : i < s.a.length := by omega
  by_cases hb : i < s.n / 2
  · refine ⟨ArrayDeque.mk (shiftBack s.j s.a.length 0 i (s.a.set ((s.j + i) % s.a.length) none))
        ((s.j + 1) % s.a.length) (s.n - 1), ?_, rfl, ?_, ?_⟩
    · have hA1len : (shiftBack s.j s.a.length 0 i
          (s.a.set ((s.j + i) % s.a.length) none)).length = s.a.length := by
        rw [shiftBack_length, ha0len]
      have hspecB := shiftBack_spec s.j s.a.length 0 i
        (s.a.set ((s.j + i) % s.a.length) none) (by rw [ha0len]) (by omega)
      refine ⟨?_, ?_, ?_, ?_, ?_⟩
      · show s.n - 1 = (L.eraseIdx i).length
        omega
      · show s.n - 1 ≤ _
        rw [hA1len]
        omega
      · rw [hA1len]
        right
        exact mod_lt_of_pos hcappos
      · intro k hk
        have hk' : k < s.n - 1 := hk
        show _ = (L.eraseIdx i)[k]?
        rw [hA1len]
        have hpos : ((s.j + 1) % s.a.length + k) % s.a.length = (s.j + (k + 1)) % s.a.length := by
          rw [Nat.mod_add_mod]
          congr 1
          omega
        rw [hpos, hspecB (k + 1) (by omega)]
        by_cases hki : k < i
        · rw [if_pos (show 0 < k + 1 ∧ k + 1 ≤ 0 + i by omega)]
          have hstep : s.j + (k + 1) - 1 = s.j + k := by omega
          rw [hstep,
            getD_set_ne (fun hc => (show ¬ i = k by omega) (mod_inj hiC (by omega) hc)),
            h.hwin k (by omega), List.getElem?_eraseIdx_of_lt L i k hki]
        · rw [if_neg (show ¬(0 < k + 1 ∧ k + 1 ≤ 0 + i) by omega),
            if_neg (show ¬(k + 1 = 0 ∧ 0 < i) by omega),
            getD_set_ne (fun hc => (show ¬ i = k + 1 by omega) (mod_inj hiC (by omega) hc)),
            h.hwin (k + 1) (by omega), List.getElem?_eraseIdx_of_ge L i k (by omega)]
      · intro p hp hfar
        have hpC : p < s.a.length := by
          have hq := hp
          rwa [hA1len] at hq
        have hfar' : ∀ k, k < s.n - 1 → p ≠ ((s.j + 1) % s.a.length + k) % s.a.length := by
          intro k hk
          have hf := hfar k hk
          rwa [hA1len] at hf
        obtain ⟨k0, hk0C, hpk⟩ := mod_surj hj1 hpC
        have hk0out : k0 = 0 ∨ s.n ≤ k0 := by
          by_contra hmid
          push_neg at hmid
          refine hfar' (k0 - 1) (by omega) ?_
          rw [Nat.mod_add_mod, hpk]
          congr 1
          omega
        show (shiftBack s.j s.a.length 0 i
          (s.a.set ((s.j + i) % s.a.length) none)).getD p none = none
        rw [hpk, hspecB k0 hk0C]
        rcases hk0out with h0 | hbig
        · subst h0
          by_cases hi0 : 0 < i
          · rw [if_neg (show ¬(0 < 0 ∧ 0 ≤ 0 + i) by omega), if_pos ⟨rfl, hi0⟩]
          · have hieq : i = 0 := by omega
            subst hieq
            rw [if_neg (show ¬(0 < 0 ∧ 0 ≤ 0 + 0) by omega),
              if_neg (show ¬((0 : Nat) = 0 ∧ 0 < 0) by omega)]
            exact getD_set_self hidxlt _
        · rw [if_neg (show ¬(0 < k0 ∧ k0 ≤ 0 + i) by omega),
            if_neg (show ¬(k0 = 0 ∧ 0 < i) by omega),
            getD_set_ne (fun hc => (show ¬ i = k0 by omega) (mod_inj hiC hk0C hc))]
          refine h.hout _ (mod_lt_of_pos hcappos) ?_
          intro k hk hc
          have := mod_inj hk0C (by omega) hc
          omega
    · show (shiftBack _ _ _ _ _).length = s.a.length
      rw [shiftBack_length, ha0len]
    · simp only [ArrayDeque.remove, ArrayDeque.capacity]
      rw [if_neg (show ¬ s.a.length = 0 by omega),
        if_neg (show ¬ s.a.length ≤ (s.j + i) % s.a.length by omega),
        if_pos hb, h.hwin i hi]
  · refine ⟨ArrayDeque.mk (shiftFwd s.j s.a.length i (s.n - 1 - i)
        (s.a.set ((s.j + i) % s.a.length) none)) s.j (s.n - 1), ?_, rfl, ?_, ?_⟩
    · have hA1len : (shiftFwd s.j s.a.length i (s.n - 1 - i)
          (s.a.set ((s.j + i) % s.a.length) none)).length = s.a.length := by
        rw [shiftFwd_length, ha0len]
      have hspecF := shiftFwd_spec s.j s.a.length (s.n - 1 - i) i
        (s.a.set ((s.j + i) % s.a.length) none) (by rw [ha0len]) (by omega)
      refine ⟨?_, ?_, ?_, ?_, ?_⟩
      · show s.n - 1 = (L.eraseIdx i).length
        omega
      · show s.n - 1 ≤ _
        rw [hA1len]
        omega
      · rw [hA1len]
        right
        exact hj1
      · intro k hk
        have hk' : k < s.n - 1 := hk
        show _ = (L.eraseIdx i)[k]?
        rw [hA1len, hspecF k (by omega)]
        by_cases hki : k < i
        · rw [if_neg (show ¬(i ≤ k ∧ k < i + (s.n - 1 - i)) by omega),
            if_neg (show ¬(k = i + (s.n - 1 - i) ∧ 0 < s.n - 1 - i) by omega),
            getD_set_ne (fun hc => (show ¬ i = k by omega) (mod_inj hiC (by omega) hc)),
            h.hwin k (by omega), List.getElem?_eraseIdx_of_lt L i k hki]
        · rw [if_pos (show i ≤ k ∧ k < i + (s.n - 1 - i) by omega),
            show s.j + k + 1 = s.j + (k + 1) from rfl,
            getD_set_ne (fun hc => (show ¬ i = k + 1 by omega) (mod_inj hiC (by omega) hc)),
            h.hwin (k + 1) (by omega), List.getElem?_eraseIdx_of_ge L i k (by omega)]
      · intro p hp hfar
        have hpC : p < s.a.length := by
          have hq := hp
          rwa [hA1len] at hq
        have hfar' : ∀ k, k < s.n - 1 → p ≠ (s.j + k) % s.a.length := by
          intro k hk
          have hf := hfar k hk
          rwa [hA1len] at hf
        obtain ⟨k0, hk0C, hpk⟩ := mod_surj hj1 hpC
        have hk0big : s.n - 1 ≤ k0 := by
          by_contra hsmall
          exact hfar' k0 (by omega) hpk
        show (shiftFwd s.j s.a.length i (s.n - 1 - i)
          (s.a.set ((s.j + i) % s.a.length) none)).getD p none = none
        rw [hpk, hspecF k0 hk0C]
        by_cases hlast : k0 = s.n - 1
        · by_cases hitail : i < s.n - 1
          · rw [if_neg (show ¬(i ≤ k0 ∧ k0 < i + (s.n - 1 - i)) by omega),
              if_pos (show k0 = i + (s.n - 1 - i) ∧ 0 < s.n - 1 - i by omega)]
          · have hieq : i = s.n - 1 := by omega
            rw [if_neg (show ¬(i ≤ k0 ∧ k0 < i + (s.n - 1 - i)) by omega),
              if_neg (show ¬(k0 = i + (s.n - 1 - i) ∧ 0 < s.n - 1 - i) by omega)]
            have hk0i : k0 = i := by omega
            subst hk0i
            exact getD_set_self hidxlt _
        · rw [if_neg (show ¬(i ≤ k0 ∧ k0 < i + (s.n - 1 - i)) by omega),
            if_neg (show ¬(k0 = i + (s.n - 1 - i) ∧ 0 < s.n - 1 - i) by omega),
            getD_set_ne (fun hc => (show ¬ i = k0 by omega) (mod_inj hiC hk0C hc))]
          refine h.hout _ (mod_lt_of_pos hcappos) ?_
          intro k hk hc
          have := mod_inj hk0C (by omega) hc
          omega
    · show (shiftFwd _ _ _ _ _).length = s.a.length
      rw [shiftFwd_length, ha0len]
    · simp only [ArrayDeque.remove, ArrayDeque.capacity]
      rw [if_neg (show ¬ s.a.length = 0 by omega),
        if_neg (show ¬ s.a.length ≤ (s.j + i) % s.a.length by omega),
        if_neg hb, if_neg (show ¬ s.n = 0 by omega), h.hwin i hi]

theorem remove_some {s : ArrayDeque T} {L : List T} (h : Abs s L) {i : Nat} (hi : i < s.n) :
    ∃ s2 : ArrayDeque T, s.remove i = some (L[i]?, s2) ∧ Abs s2 (L.eraseIdx i) ∧
      s2.n = s.n - 1 ∧
      s2.a.length = (if 3 * (s.n - 1) < s.a.length then max ((s.n - 1) * 2) 1 else s.a.length) ∧
      (3 * (s.n - 1) < s.a.length →
        s2.j = 0 ∧ ∀ k, k < s.n - 1 → s2.a.getD k none = (L.eraseIdx i)[k]?) := by
  obtain ⟨s1, habs1, hn1, hlen1, heq⟩ := remove_eq h hi
  by_cases hshr : 3 * s1.n < s1.a.length
  · obtain ⟨habs2, hlen2, hj2, hn2, hcopy⟩ := resize_spec habs1
    have hshr' : 3 * (s.n - 1) < s.a.length := by
      rw [hn1, hlen1] at hshr
      exact hshr
    refine ⟨s1.resize, ?_, habs2, ?_, ?_, ?_⟩
    · rw [heq, if_pos hshr]
    · rw [hn2, hn1]
    · rw [hlen2, hn1, if_pos hshr']
    · intro _
      refine ⟨hj2, ?_⟩
      intro k hk
      exact hcopy k (by omega)
  · have hshr' : ¬ 3 * (s.n - 1) < s.a.length := by
      rw [hn1, hlen1] at hshr
      exact hshr
    refine ⟨s1, ?_, habs1, hn1, ?_, ?_⟩
    · rw [heq, if_neg hshr]
    · rw [if_neg hshr', hlen1]
    · intro hc
      exact (hshr' hc).elim

end DequeRemove

/-! ## Reference model: operation sequences against a mathematical list

The reference semantics follows the specification's description of the
List contract: `add i x` inserts at position `i` (shifting later elements
back), `set i x` replaces position `i`, `remove i` deletes position `i`
(shifting later elements forward).  A `none` result marks an operation
whose precondition (`i ≤ length` for add, `i < length` for set/remove)
is violated. -/

section RefModel

variable {T : Type}

/-- One positional List operation (index plus, for writes, the value). -/
inductive Op (T : Type) where
  | addAt : Nat → T → Op T
  | setAt : Nat → T → Op T
  | removeAt : Nat → Op T
deriving DecidableEq

/-- Modelled from the spec: the effect of one operation on the reference
list, `none` when the operation's precondition is violated. -/
def specStep (L : List T) : Op T → Option (List T)
  | Op.addAt i x => if i ≤ L.length then some (L.insertIdx i x) else none
  | Op.setAt i x => if i < L.length then some (L.set i x) else none
  | Op.removeAt i => if i < L.length then some (L.eraseIdx i) else none

/-- Modelled from the spec: run a sequence of operations on the reference
list; `none` as soon as one precondition is violated. -/
def runSpec : List (Op T) → List T → Option (List T)
  | [], L => some L
  | op :: ops, L => (specStep L op).bind (runSpec ops)

/-- The same operation applied to the embedded ArrayDeque; `none` when the
code panics (which the valid reference run rules out). -/
def codeStep (s : ArrayDeque T) : Op T → Option (ArrayDeque T)
  | Op.addAt i x => some (s.add i x)
  | Op.setAt i x => (s.set i x).map Prod.snd
  | Op.removeAt i => (s.remove i).map Prod.snd

/-- Run a sequence of operations on the embedded ArrayDeque. -/
def runCode : List (Op T) → ArrayDeque T → Option (ArrayDeque T)
  | [], s => some s
  | op :: ops, s => (codeStep s op).bind (runCode ops)

theorem runCode_abs : ∀ (ops : List (Op T)) (s : ArrayDeque T) (L L' : List T),
    Abs s L → runSpec ops L = some L' →
    ∃ s', runCode ops s = some s' ∧ Abs s' L' := by
  intro ops
  induction ops with
  | nil =>
      intro s L L' h hrun
      refine ⟨s, rfl, ?_⟩
      have : L = L' := by
        simpa [runSpec] using hrun
      rwa [this] at h
  | cons op ops ih =>
      intro s L L' h hrun
      rcases op with ⟨i, x⟩ | ⟨i, x⟩ | i
      · by_cases hp : i ≤ L.length
        · have hstep : specStep L (Op.addAt i x) = some (L.insertIdx i x) := by
            simp [specStep, hp]
          rw [runSpec, hstep] at hrun
          rw [Option.some_bind] at hrun
          obtain ⟨s', hs', habs'⟩ := ih (s.add i x) (L.insertIdx i x) L' (add_abs h hp x) hrun
          refine ⟨s', ?_, habs'⟩
          rw [runCode]
          simpa [codeStep] using hs'
        · rw [runSpec] at hrun
          simp [specStep, hp] at hrun
      · by_cases hp : i < L.length
        · have hstep : specStep L (Op.setAt i x) = some (L.set i x) := by
            simp [specStep, hp]
          rw [runSpec, hstep] at hrun
          rw [Option.some_bind] at hrun
          have hiN : i < s.n := by rw [h.hn]; exact hp
          obtain ⟨heq, habs2⟩ := set_eq h hiN x
          obtain ⟨s', hs', habs'⟩ := ih _ (L.set i x) L' habs2 hrun
          refine ⟨s', ?_, habs'⟩
          rw [runCode]
          simp only [codeStep, heq, Option.map_some']
          simpa using hs'
        · rw [runSpec] at hrun
          simp [specStep, hp] at hrun
      · by_cases hp : i < L.length
        · have hstep : specStep L (Op.removeAt i) = some (L.eraseIdx i) := by
            simp [specStep, hp]
          rw [runSpec, hstep] at hrun
          rw [Option.some_bind] at hrun
          have hiN : i < s.n := by rw [h.hn]; exact hp
          obtain ⟨s2, heq, habs2, _, _, _⟩ := remove_some h hiN
          obtain ⟨s', hs', habs'⟩ := ih s2 (L.eraseIdx i) L' habs2 hrun
          refine ⟨s', ?_, habs'⟩
          rw [runCode]
          simp only [codeStep, heq, Option.map_some']
          simpa using hs'
        · rw [runSpec] at hrun
          simp [specStep, hp] at hrun

end RefModel

/-! ## Abstraction for ArrayQueue

The `ArrayQueue` struct has the same representation as `ArrayDeque`
(buffer of optional slots, head offset, count), so its data-model
invariants are expressed by converting to the deque state and reusing
the relation `Abs`. -/

section QueueAbs

variable {T : Type}

/-- Repackage an ArrayQueue state as an ArrayDeque state (identical fields). -/
def ArrayQueue.toDeque (q : ArrayQueue T) : ArrayDeque T :=
  ⟨q.a, q.j, q.n⟩

/-- The queue state represents the list `L` (front of the queue first). -/
def QAbs (q : ArrayQueue T) (L : List T) : Prop :=
  Abs q.toDeque L

theorem qabs_new : QAbs (ArrayQueue.new : ArrayQueue T) [] :=
  abs_new

theorem qresize_toDeque (q : ArrayQueue T) :
    (q.resize).toDeque = (q.toDeque).resize := rfl

theorem qadd_abs {q : ArrayQueue T} {L : List T} (h : QAbs q L) (x : T) :
    QAbs (q.add x).2 (L ++ [x]) := by
  have hcore : ∀ q1 : ArrayQueue T, QAbs q1 L → q1.n + 1 ≤ q1.a.length →
      QAbs ⟨q1.a.set ((q1.j + q1.n) % q1.a.length) (some x), q1.j, q1.n + 1⟩ (L ++ [x]) := by
    intro q1 h1 hroom
    obtain ⟨hn, hcap, hj, hwin, hout⟩ := h1
    simp only [ArrayQueue.toDeque] at hn hcap hj hwin hout
    have hcappos : 0 < q1.a.length := by omega
    have hj1 : q1.j < q1.a.length := by rcases hj with h0 | h0 <;> omega
    have hposlt : (q1.j + q1.n) % q1.a.length < q1.a.length := mod_lt_of_pos hcappos
    refine ⟨?_, ?_, ?_, ?_, ?_⟩
    · show q1.n + 1 = (L ++ [x]).length
      rw [List.length_append]
      simp [hn]
    · show q1.n + 1 ≤ (List.set _ _ _).length
      rw [List.length_set]
      exact hroom
    · show (List.set _ _ _).length = 0 ∨ q1.j < (List.set _ _ _).length
      rw [List.length_set]
      right
      exact hj1
    · intro k hk
      have hk' : k < q1.n + 1 := hk
      show (List.set _ _ _).getD ((q1.j + k) % (List.set _ _ _).length) none = (L ++ [x])[k]?
      rw [List.length_set]
      by_cases hkn : k = q1.n
      · subst hkn
        rw [getD_set_self hposlt]
        rw [hn, List.getElem?_concat_length]
      · have hne : (q1.j + q1.n) % q1.a.length ≠ (q1.j + k) % q1.a.length := by
          intro hc
          exact hkn (mod_inj (by omega) (by omega) hc.symm)
        rw [getD_set_ne hne, hwin k (by omega), List.getElem?_append_left (by omega)]
    · intro p hp hfar
      have hpC : p < q1.a.length := by
        simpa [ArrayQueue.toDeque] using hp
      have hfar' : ∀ k, k < q1.n + 1 → p ≠ (q1.j + k) % q1.a.length := by
        intro k hk
        have hf := hfar k hk
        simpa [ArrayQueue.toDeque] using hf
      obtain ⟨k0, hk0C, hpk⟩ := mod_surj hj1 hpC
      have hk0big : q1.n + 1 ≤ k0 := by
        by_contra hsmall
        exact hfar' k0 (by omega) hpk
      show (List.set _ _ _).getD p none = none
      have hne : (q1.j + q1.n) % q1.a.length ≠ p := by
        intro hc
        rw [hpk] at hc
        have := mod_inj (by omega) hk0C hc
        omega
      rw [getD_set_ne hne, hpk]
      refine hout _ (mod_lt_of_pos hcappos) ?_
      intro k hk hc
      have := mod_inj hk0C (by omega) hc
      omega
  by_cases hg : q.n + 1 > q.a.length
  · have hr := resize_spec (L := L) h
    rw [← qresize_toDeque] at hr
    have hroom : q.resize.n + 1 ≤ q.resize.a.length := by
      have hl : q.resize.a.length = max (q.n * 2) 1 := hr.2.1
      have hnn : q.resize.n = q.n := rfl
      rw [hl, hnn]
      rcases Nat.eq_zero_or_pos q.n with h0 | h0
      · simp [h0]
      · exact le_trans (by omega) (le_max_left _ _)
    have hbody := hcore q.resize hr.1 hroom
    show QAbs ((q.add x).2) (L ++ [x])
    simp only [ArrayQueue.add, ArrayQueue.capacity]
    rw [if_pos hg]
    exact hbody
  · have hbody := hcore q h (by omega)
    show QAbs ((q.add x).2) (L ++ [x])
    simp only [ArrayQueue.add, ArrayQueue.capacity]
    rw [if_neg hg]
    exact hbody

theorem qremove_nil {q : ArrayQueue T} (h : QAbs q []) : q.remove = (none, q) := by
  have hn : q.n = 0 := by
    have := h.hn
    simpa [ArrayQueue.toDeque] using this
  simp [ArrayQueue.remove, hn]

theorem qremove_cons {q : ArrayQueue T} {y : T} {L : List T} (h : QAbs q (y :: L)) :
    q.remove = (some y, ⟨q.a.set q.j none, (q.j + 1) % q.a.length, q.n - 1⟩) ∧
      QAbs ⟨q.a.set q.j none, (q.j + 1) % q.a.length, q.n - 1⟩ L := by
  obtain ⟨hn0, hcap, hj, hwin, hout⟩ := h
  simp only [ArrayQueue.toDeque] at hn0 hcap hj hwin hout
  have hn : q.n = L.length + 1 := by simpa using hn0
  have hcappos : 0 < q.a.length := by omega
  have hj1 : q.j < q.a.length := by rcases hj with h0 | h0 <;> omega
  have hj0 : (q.j + 0) % q.a.length = q.j := by
    rw [Nat.add_zero, Nat.mod_eq_of_lt hj1]
  have hval : q.a.getD q.j none = some y := by
    have h0 := hwin 0 (by omega)
    rw [hj0] at h0
    simpa using h0
  constructor
  · simp only [ArrayQueue.remove, ArrayQueue.capacity]
    rw [if_neg (show ¬ q.n = 0 by omega), hval]
  · refine ⟨?_, ?_, ?_, ?_, ?_⟩
    · show q.n - 1 = L.length
      omega
    · show q.n - 1 ≤ (List.set _ _ _).length
      rw [List.length_set]
      omega
    · show (List.set _ _ _).length = 0 ∨ _ < (List.set _ _ _).length
      rw [List.length_set]
      right
      exact mod_lt_of_pos hcappos
    · intro k hk
      have hk' : k < q.n - 1 := hk
      show (List.set _ _ _).getD (((q.j + 1) % q.a.length + k) % (List.set _ _ _).length) none
        = L[k]?
      rw [List.length_set]
      have hpos : ((q.j + 1) % q.a.length + k) % q.a.length = (q.j + (k + 1)) % q.a.length := by
        rw [Nat.mod_add_mod]
        congr 1
        omega
      rw [hpos]
      have hne : q.j ≠ (q.j + (k + 1)) % q.a.length := by
        intro hc
        have hc' : (q.j + 0) % q.a.length = (q.j + (k + 1)) % q.a.length := by
          rw [hj0]
          exact hc
        have : (0 : Nat) = k + 1 := mod_inj (by omega) (by omega) hc'
        omega
      rw [getD_set_ne hne, hwin (k + 1) (by omega)]
      exact List.getElem?_cons_succ
    · intro p hp hfar
      have hpC : p < q.a.length := by
        simpa [ArrayQueue.toDeque] using hp
      have hfar' : ∀ k, k < q.n - 1 → p ≠ ((q.j + 1) % q.a.length + k) % q.a.length := by
        intro k hk
        have hf := hfar k hk
        simpa [ArrayQueue.toDeque] using hf
      obtain ⟨k0, hk0C, hpk⟩ := mod_surj hj1 hpC
      have hk0out : k0 = 0 ∨ q.n ≤ k0 := by
        by_contra hmid
        push_neg at hmid
        refine hfar' (k0 - 1) (by omega) ?_
        rw [Nat.mod_add_mod, hpk]
        congr 1
        omega
      show (List.set _ _ _).getD p none = none
      rcases hk0out with h0 | hbig
      · subst h0
        rw [hpk, hj0]
        exact getD_set_self hj1 _
      · have hne : q.j ≠ p := by
          intro hc
          rw [hpk] at hc
          have hc' : (q.j + 0) % q.a.length = (q.j + k0) % q.a.length := by
            rw [hj0]
            exact hc
          have : (0 : Nat) = k0 := mod_inj (by omega) hk0C hc'
          omega
        rw [getD_set_ne hne, hpk]
        refine hout _ (mod_lt_of_pos hcappos) ?_
        intro k hk hc
        have := mod_inj hk0C (by omega) hc
        omega

/-- Enqueue every element of `xs` in order (repeated `Queue::add`). -/
def enqueueAll : ArrayQueue T → List T → ArrayQueue T
  | q, [] => q
  | q, x :: xs => enqueueAll (q.add x).2 xs

/-- The results of `c` successive `Queue::remove` calls. -/
def dequeues : ArrayQueue T → Nat → List (Option T)
  | _, 0 => []
  | q, c + 1 => (q.remove).1 :: dequeues (q.remove).2 c

theorem enqueueAll_abs : ∀ (xs : List T) (q : ArrayQueue T) (L : List T),
    QAbs q L → QAbs (enqueueAll q xs) (L ++ xs) := by
  intro xs
  induction xs with
  | nil =>
      intro q L h
      simpa [enqueueAll] using h
  | cons x xs ih =>
      intro q L h
      have h1 := qadd_abs h x
      have h2 := ih (q.add x).2 (L ++ [x]) h1
      rw [enqueueAll]
      simpa using h2

theorem dequeues_abs : ∀ (L : List T) (q : ArrayQueue T), QAbs q L →
    dequeues q (L.length + 1) = L.map some ++ [none] := by
  intro L
  induction L with
  | nil =>
      intro q h
      show (q.remove).1 :: dequeues (q.remove).2 0 = [].map some ++ [none]
      rw [qremove_nil h]
      rfl
  | cons y L ih =>
      intro q h
      obtain ⟨heq, habs⟩ := qremove_cons h
      show (q.remove).1 :: dequeues (q.remove).2 (L.length + 1) = some y :: (L.map some ++ [none])
      rw [heq]
      exact congrArg _ (ih _ habs)

end QueueAbs

/-! ## Executable invariant check (used to validate concrete states) -/

section AbsCheck

variable {T : Type}

/-- Executable form of the data-model invariants of `Abs`. -/
def absCheck [DecidableEq T] (s : ArrayDeque T) (L : List T) : Bool :=
  decide (s.n = L.length) && decide (s.n ≤ s.a.length) &&
    (decide (s.a.length = 0) || decide (s.j < s.a.length)) &&
    ((List.range s.n).all fun k =>
      decide (s.a.getD ((s.j + k) % s.a.length) none = L[k]?)) &&
    ((List.range s.a.length).all fun p =>
      ((List.range s.n).any fun k => decide (p = (s.j + k) % s.a.length)) ||
        decide (s.a.getD p none = none))

theorem absCheck_sound [DecidableEq T] {s : ArrayDeque T} {L : List T}
    (h : absCheck s L = true) : Abs s L := by
  unfold absCheck at h
  simp only [Bool.and_eq_true, Bool.or_eq_true, decide_eq_true_eq, List.all_eq_true,
    List.any_eq_true, List.mem_range] at h
  obtain ⟨⟨⟨⟨h1, h2⟩, h3⟩, h4⟩, h5⟩ := h
  refine ⟨h1, h2, h3, ?_, ?_⟩
  · intro k hk
    exact h4 k hk
  · intro p hp hfar
    rcases h5 p hp with ⟨k, hk, hpk⟩ | hnone
    · exact absurd hpk (hfar k hk)
    · exact hnone

end AbsCheck

/-! ## Capacity bookkeeping of add and resize (no invariants required) -/

section Capacity

variable {T : Type}

theorem resize_length (s : ArrayDeque T) :
    s.resize.a.length = max (s.n * 2) 1 ∧ s.resize.n = s.n ∧ s.resize.j = 0 := by
  refine ⟨?_, rfl, rfl⟩
  show (resizeLoop s.j s.capacity 0 s.n s.a (allocate_with T (max (s.n * 2) 1))).length = _
  rw [resizeLoop_length]
  simp [allocate_with]

theorem add_cap (s : ArrayDeque T) (i : Nat) (x : T) :
    (s.add i x).a.length = (if s.a.length < s.n + 1 then max (s.n * 2) 1 else s.a.length) ∧
      (s.add i x).n = s.n + 1 := by
  have hcore : ∀ s1 : ArrayDeque T,
      ((if i < s1.n / 2 then
          { a := (shiftFwd (if s1.j = 0 then s1.a.length - 1 else s1.j - 1)
              s1.a.length 0 i s1.a).set
              (((if s1.j = 0 then s1.a.length - 1 else s1.j - 1) + i) % s1.a.length) (some x),
            j := if s1.j = 0 then s1.a.length - 1 else s1.j - 1, n := s1.n + 1 }
        else
          { a := (shiftBack s1.j s1.a.length i (s1.n - i) s1.a).set
              ((s1.j + i) % s1.a.length) (some x),
            j := s1.j, n := s1.n + 1 } : ArrayDeque T).a.length = s1.a.length ∧
       (if i < s1.n / 2 then
          { a := (shiftFwd (if s1.j = 0 then s1.a.length - 1 else s1.j - 1)
              s1.a.length 0 i s1.a).set
              (((if s1.j = 0 then s1.a.length - 1 else s1.j - 1) + i) % s1.a.length) (some x),
            j := if s1.j = 0 then s1.a.length - 1 else s1.j - 1, n := s1.n + 1 }
        else
          { a := (shiftBack s1.j s1.a.length i (s1.n - i) s1.a).set
              ((s1.j + i) % s1.a.length) (some x),
            j := s1.j, n := s1.n + 1 } : ArrayDeque T).n = s1.n + 1) := by
    intro s1
    by_cases hb : i < s1.n / 2
    · rw [if_pos hb]
      constructor
      · show (List.set _ _ _).length = s1.a.length
        rw [List.length_set, shiftFwd_length]
      · rfl
    · rw [if_neg hb]
      constructor
      · show (List.set _ _ _).length = s1.a.length
        rw [List.length_set, shiftBack_length]
      · rfl
  by_cases hg : s.n + 1 > s.a.length
  · have hres := resize_length s
    constructor
    · show (ArrayDeque.add s i x).a.length = _
      simp only [ArrayDeque.add, ArrayDeque.capacity]
      rw [if_pos hg, (hcore s.resize).1, hres.1, if_pos (by omega)]
    · show (ArrayDeque.add s i x).n = _
      simp only [ArrayDeque.add, ArrayDeque.capacity]
      rw [if_pos hg, (hcore s.resize).2, hres.2.1]
  · constructor
    · show (ArrayDeque.add s i x).a.length = _
      simp only [ArrayDeque.add, ArrayDeque.capacity]
      rw [if_neg hg, (hcore s).1, if_neg (by omega)]
    · show (ArrayDeque.add s i x).n = _
      simp only [ArrayDeque.add, ArrayDeque.capacity]
      rw [if_neg hg, (hcore s).2]

end Capacity

/-! ## Data-model invariant of a state (count bound and clean slots) -/

/-- Count within capacity, and every physical slot outside the logical
window `[j, j+n)` (mod capacity) holds the empty marker. -/
def Inv {T : Type} (s : ArrayDeque T) : Prop :=
  s.n ≤ s.a.length ∧ ∀ p, p < s.a.length →
    (∀ k, k < s.n → p ≠ (s.j + k) % s.a.length) → s.a.getD p none = none

/-! ## Theorems for the specified claims -/

/-- C1: for every sequence of ArrayDeque operations that respects each
operation's precondition (tracked by the reference run succeeding), the
container behaves like the reference sequence: `size` equals the reference
length and `get i` returns exactly the reference element at every index. -/
theorem arrayDeque_refines_reference (T : Type) (ops : List (Op T)) (L : List T)
    (h : runSpec ops [] = some L) :
    ∃ s : ArrayDeque T, runCode ops ArrayDeque.new = some s ∧
      s.size = L.length ∧ ∀ i, s.get i = L[i]? := by
  obtain ⟨s, hs, habs⟩ := runCode_abs ops ArrayDeque.new [] L abs_new h
  exact ⟨s, hs, habs.hn, fun i => get_abs habs i⟩

/-- Witness for the refinement theorem, run on the operation sequence of
the repository's own unit test. -/
theorem arrayDeque_refines_reference_witness :
    runSpec [Op.addAt 0 2, Op.addAt 0 1, Op.removeAt 0, Op.setAt 0 5] ([] : List Nat) =
        some [5] ∧
      ∃ s : ArrayDeque Nat,
        runCode [Op.addAt 0 2, Op.addAt 0 1, Op.removeAt 0, Op.setAt 0 5] ArrayDeque.new =
            some s ∧
          s.size = [5].length ∧ ∀ i, s.get i = [5][i]? :=
  ⟨rfl, arrayDeque_refines_reference Nat _ [5] rfl⟩

/-- C2 (behavior of the code at the failing input): on the one-element
deque built by `add(0, 7)` (capacity 1, count 1), `remove(1)` computes the
physical slot `(0 + 1) % 1 = 0`, takes the element stored there, and
returns it with the count dropped to 0 — instead of returning absent and
leaving the container unchanged. -/
theorem arrayDeque_remove_out_of_range_steals :
    ((ArrayDeque.new : ArrayDeque Nat).add 0 7).remove 1 =
        some (some 7, ⟨[none], 0, 0⟩) ∧
      ((ArrayDeque.new : ArrayDeque Nat).add 0 7).size = 1 ∧
      ((ArrayDeque.new : ArrayDeque Nat).add 0 7).get 0 = some 7 := by
  refine ⟨?_, rfl, rfl⟩
  rfl

/-- C3 (behavior of the code at the failing input): on the freshly created
deque (capacity 0), `remove(0)` evaluates `(j + 0) % capacity` with
capacity 0 — a remainder by zero, which panics (the `none` of the model);
`get`, by contrast, is total and reports absence on every index. -/
theorem arrayDeque_remove_on_new_panics :
    (ArrayDeque.new : ArrayDeque Nat).remove 0 = none ∧
      ∀ i, (ArrayDeque.new : ArrayDeque Nat).get i = none := by
  refine ⟨rfl, ?_⟩
  intro i
  simp [ArrayDeque.get, ArrayDeque.within_bound, ArrayDeque.new]

/-- C4: `set i x` panics (no result state) exactly when `i ≥ size`; on
`i < size` it returns the value previously stored at logical position `i`,
a subsequent `get i` returns `x`, the size is unchanged, and every other
position reads as before. -/
theorem arrayDeque_set_roundtrip (T : Type) (s : ArrayDeque T) (L : List T) (h : Abs s L)
    (i : Nat) (x : T) :
    (s.set i x = none ↔ s.size ≤ i) ∧
      (i < s.size → ∃ s' : ArrayDeque T, s.set i x = some (L[i]?, s') ∧
        s'.get i = some x ∧ s'.size = s.size ∧ ∀ k, k ≠ i → s'.get k = s.get k) := by
  constructor
  · by_cases hi : i < s.n
    · have heq := (set_eq h hi x).1
      rw [heq]
      constructor
      · intro hc
        exact absurd hc (by simp)
      · intro hc
        exact absurd hc (by show ¬ s.n ≤ i; omega)
    · have heq : s.set i x = none := by
        simp [ArrayDeque.set, ArrayDeque.within_bound, hi]
      rw [heq]
      constructor
      · intro _
        show s.n ≤ i
        omega
      · intro _
        rfl
  · intro hi
    obtain ⟨heq, habs'⟩ := set_eq h hi x
    refine ⟨_, heq, ?_, rfl, ?_⟩
    · rw [get_abs habs' i, List.getElem?_set_self (by rw [← h.hn]; exact hi)]
    · intro k hk
      rw [get_abs habs' k, get_abs h k, List.getElem?_set_ne (fun hc => hk hc.symm)]

/-- Witness for the set round-trip theorem on the one-element state holding 7. -/
theorem arrayDeque_set_roundtrip_witness :
    Abs (⟨[some 7], 0, 1⟩ : ArrayDeque Nat) [7] ∧
      ((⟨[some 7], 0, 1⟩ : ArrayDeque Nat).set 0 5 = none ↔
        (⟨[some 7], 0, 1⟩ : ArrayDeque Nat).size ≤ 0) :=
  have habs : Abs (⟨[some 7], 0, 1⟩ : ArrayDeque Nat) [7] := absCheck_sound (by decide)
  ⟨habs, (arrayDeque_set_roundtrip Nat _ [7] habs 0 5).1⟩

/-- C5 (behavior of the code at the failing input, under the faithful
allocation model): on the full two-element deque `[Some(1), Some(2)]`
(capacity 2, count 2, a valid data-model state), the append `add(2, 3)`
triggers a grow to four slots.  The copy loop writes slots 0 and 1, the
insertion writes slot 2, and slot 3 — outside the logical window — is
never written: it keeps whatever the allocator handed back (here `junk`
maps every slot to `Some(99)`), not the empty marker.  So the invariant
`Inv` fails after a reallocation that ends with count below capacity,
against the claim that it holds after every mutating operation. -/
theorem arrayDeque_grow_leaves_stale_slot :
    absCheck (⟨[some 1, some 2], 0, 2⟩ : ArrayDeque Nat) [1, 2] = true ∧
      ArrayDeque.addU (fun _ => some 99) (⟨[some 1, some 2], 0, 2⟩ : ArrayDeque Nat) 2 3 =
        ⟨[some 1, some 2, some 3, some 99], 0, 3⟩ ∧
      ¬ Inv (ArrayDeque.addU (fun _ => some 99)
        (⟨[some 1, some 2], 0, 2⟩ : ArrayDeque Nat) 2 3) := by
  refine ⟨by decide, by decide, ?_⟩
  intro hInv
  have h3 := hInv.2 3 (by decide) (by decide)
  exact absurd h3 (by decide)

/-- C6: `add` reallocates exactly when `count + 1 > capacity`, the grow
target is `max(2 count, 1)` while count becomes `count + 1`; `resize`
itself copies the `count` logical elements into physical slots `[0,count)`
in logical order and resets the head to 0; in particular a full container
with capacity 6 and count 6 grows to capacity 12 and count 7. -/
theorem arrayDeque_grow_policy (T : Type) (s : ArrayDeque T) (L : List T) (h : Abs s L) :
    (∀ i x, (s.add i x).capacity =
        (if s.capacity < s.size + 1 then max (s.size * 2) 1 else s.capacity)) ∧
      (∀ i x, (s.add i x).size = s.size + 1) ∧
      (s.resize.capacity = max (s.size * 2) 1 ∧ s.resize.j = 0 ∧ s.resize.size = s.size ∧
        ∀ k, k < s.size → s.resize.a.getD k none = L[k]?) ∧
      (s.capacity = 6 → s.size = 6 → ∀ i x, (s.add i x).capacity = 12 ∧ (s.add i x).size = 7) := by
  obtain ⟨habsr, hrlen, hrj, hrn, hrcopy⟩ := resize_spec h
  refine ⟨?_, ?_, ⟨hrlen, hrj, hrn, hrcopy⟩, ?_⟩
  · intro i x
    exact (add_cap s i x).1
  · intro i x
    exact (add_cap s i x).2
  · intro hc6 hn6 i x
    have h1 := (add_cap s i x).1
    have h2 := (add_cap s i x).2
    have hc6' : s.a.length = 6 := hc6
    have hn6' : s.n = 6 := hn6
    rw [hc6', hn6'] at h1
    rw [hn6'] at h2
    constructor
    · show (s.add i x).a.length = 12
      rw [h1, if_pos (by omega)]
      decide
    · exact h2

/-- Witness for the grow policy at the full capacity-6 count-6 state. -/
theorem arrayDeque_grow_policy_witness :
    Abs (⟨[some 1, some 2, some 3, some 4, some 5, some 6], 0, 6⟩ : ArrayDeque Nat)
        [1, 2, 3, 4, 5, 6] ∧
      ((⟨[some 1, some 2, some 3, some 4, some 5, some 6], 0, 6⟩ : ArrayDeque Nat).capacity = 6 →
        (⟨[some 1, some 2, some 3, some 4, some 5, some 6], 0, 6⟩ : ArrayDeque Nat).size = 6 →
        ∀ i x,
          ((⟨[some 1, some 2, some 3, some 4, some 5, some 6], 0, 6⟩ : ArrayDeque Nat).add i
              x).capacity = 12 ∧
          ((⟨[some 1, some 2, some 3, some 4, some 5, some 6], 0, 6⟩ : ArrayDeque Nat).add i
              x).size = 7) :=
  have habs : Abs (⟨[some 1, some 2, some 3, some 4, some 5, some 6], 0, 6⟩ : ArrayDeque Nat)
      [1, 2, 3, 4, 5, 6] := absCheck_sound (by decide)
  ⟨habs, (arrayDeque_grow_policy Nat _ [1, 2, 3, 4, 5, 6] habs).2.2.2⟩

/-- C7: on a valid index, `remove` returns the element at position `i`,
decrements the count, and reallocates exactly when the capacity is
positive and three times the decremented count is below it; the shrink
target is `max(2 count, 1)` with the remaining elements copied to
physical slots `[0, count)` in logical order and head reset to 0. -/
theorem arrayDeque_shrink_policy (T : Type) (s : ArrayDeque T) (L : List T) (h : Abs s L)
    (i : Nat) (hi : i < s.size) :
    ∃ s2 : ArrayDeque T, s.remove i = some (L[i]?, s2) ∧ s2.size = s.size - 1 ∧
      s2.capacity = (if 0 < s.capacity ∧ 3 * (s.size - 1) < s.capacity
        then max ((s.size - 1) * 2) 1 else s.capacity) ∧
      (3 * (s.size - 1) < s.capacity →
        s2.j = 0 ∧ ∀ k, k < s.size - 1 → s2.a.getD k none = (L.eraseIdx i)[k]?) := by
  obtain ⟨s2, heq, habs2, hn2, hlen2, hshr⟩ := remove_some h hi
  refine ⟨s2, heq, hn2, ?_, hshr⟩
  have hcappos : 0 < s.a.length := by
    have h1 := h.hcap
    have h2 : i < s.n := hi
    omega
  show s2.a.length =
    (if 0 < s.a.length ∧ 3 * (s.n - 1) < s.a.length
      then max ((s.n - 1) * 2) 1 else s.a.length)
  rw [hlen2]
  by_cases hc : 3 * (s.n - 1) < s.a.length
  · rw [if_pos hc, if_pos ⟨hcappos, hc⟩]
  · rw [if_neg hc, if_neg (show ¬(0 < s.a.length ∧ 3 * (s.n - 1) < s.a.length)
      from fun hp => hc hp.2)]

/-- Witness for the shrink policy: removing from a two-element state with
capacity 8 shrinks to capacity 2. -/
theorem arrayDeque_shrink_policy_witness :
    Abs (⟨[some 1, some 2, none, none, none, none, none, none], 0, 2⟩ : ArrayDeque Nat)
        [1, 2] ∧ 0 < (2 : Nat) ∧
      ∃ s2 : ArrayDeque Nat,
        (⟨[some 1, some 2, none, none, none, none, none, none], 0, 2⟩ : ArrayDeque Nat).remove 0 =
            some ([1, 2][0]?, s2) ∧
          s2.size = (⟨[some 1, some 2, none, none, none, none, none, none], 0, 2⟩ :
              ArrayDeque Nat).size - 1 ∧
          s2.capacity =
            (if 0 < (⟨[some 1, some 2, none, none, none, none, none, none], 0, 2⟩ :
                ArrayDeque Nat).capacity ∧
                3 * ((⟨[some 1, some 2, none, none, none, none, none, none], 0, 2⟩ :
                  ArrayDeque Nat).size - 1) <
                  (⟨[some 1, some 2, none, none, none, none, none, none], 0, 2⟩ :
                    ArrayDeque Nat).capacity
              then max (((⟨[some 1, some 2, none, none, none, none, none, none], 0, 2⟩ :
                ArrayDeque Nat).size - 1) * 2) 1
              else (⟨[some 1, some 2, none, none, none, none, none, none], 0, 2⟩ :
                ArrayDeque Nat).capacity) ∧
          (3 * ((⟨[some 1, some 2, none, none, none, none, none, none], 0, 2⟩ :
              ArrayDeque Nat).size - 1) <
              (⟨[some 1, some 2, none, none, none, none, none, none], 0, 2⟩ :
                ArrayDeque Nat).capacity →
            s2.j = 0 ∧ ∀ k, k < (⟨[some 1, some 2, none, none, none, none, none, none], 0, 2⟩ :
              ArrayDeque Nat).size - 1 →
              s2.a.getD k none = ([1, 2].eraseIdx 0)[k]?) :=
  have habs : Abs (⟨[some 1, some 2, none, none, none, none, none, none], 0, 2⟩ :
      ArrayDeque Nat) [1, 2] := absCheck_sound (by decide)
  ⟨habs, by decide,
    arrayDeque_shrink_policy Nat _ [1, 2] habs 0 (by decide)⟩

/-- C8: resizing does not thrash for count at least 1: a grow triggered by
`add` leaves the following `remove` (at any valid index) below its shrink
threshold, capacity unchanged; and a shrink triggered by `remove` leaves
the following `add` (at any index) below its grow threshold, capacity
unchanged. -/
theorem arrayDeque_resize_no_thrash (T : Type) (s : ArrayDeque T) (L : List T) (h : Abs s L)
    (hpos : 1 ≤ s.size) :
    (∀ i x, i ≤ s.size → s.capacity < s.size + 1 →
      (¬ 3 * ((s.add i x).size - 1) < (s.add i x).capacity) ∧
      ∀ i2, i2 < (s.add i x).size →
        ∃ r s2, (s.add i x).remove i2 = some (r, s2) ∧ s2.capacity = (s.add i x).capacity) ∧
    (∀ i, i < s.size → 3 * (s.size - 1) < s.capacity →
      ∀ r s1, s.remove i = some (r, s1) →
        (¬ s1.capacity < s1.size + 1) ∧
        ∀ i2 x2, (s1.add i2 x2).capacity = s1.capacity) := by
  have hposn : 1 ≤ s.n := hpos
  constructor
  · intro i x hile hg
    have hg' : s.a.length < s.n + 1 := hg
    have hile' : i ≤ s.n := hile
    have hcap1 : (s.add i x).a.length = max (s.n * 2) 1 := by
      rw [(add_cap s i x).1, if_pos hg']
    have hn1 : (s.add i x).n = s.n + 1 := (add_cap s i x).2
    have hmax : max (s.n * 2) 1 = s.n * 2 := Nat.max_eq_left (by omega)
    have hguard : ¬ 3 * ((s.add i x).n - 1) < (s.add i x).a.length := by
      rw [hcap1, hn1, hmax]
      omega
    refine ⟨hguard, ?_⟩
    intro i2 hi2
    have hi2' : i2 < (s.add i x).n := hi2
    have habs1 : Abs (s.add i x) (L.insertIdx i x) :=
      add_abs h (by rw [← h.hn]; exact hile') x
    obtain ⟨s2, heq, _, _, hlen2, _⟩ := remove_some habs1 hi2'
    refine ⟨_, s2, heq, ?_⟩
    show s2.a.length = (s.add i x).a.length
    rw [hlen2, if_neg hguard]
  · intro i hi hshrink r s1 heq1
    have hi' : i < s.n := hi
    have hshrink' : 3 * (s.n - 1) < s.a.length := hshrink
    obtain ⟨s2, heq2, _, hn2, hlen2, _⟩ := remove_some h hi'
    have hpair := Option.some.inj (heq2.symm.trans heq1)
    have hs1 : s1 = s2 := (congrArg Prod.snd hpair).symm
    subst hs1
    have hcap2 : s1.a.length = max ((s.n - 1) * 2) 1 := by
      rw [hlen2, if_pos hshrink']
    have hguard : ¬ s1.a.length < s1.n + 1 := by
      rw [hcap2, hn2]
      rcases Nat.eq_zero_or_pos (s.n - 1) with h0 | h0
      · rw [h0]
        simp
      · rw [Nat.max_eq_left (by omega)]
        omega
    refine ⟨hguard, ?_⟩
    intro i2 x2
    show (s1.add i2 x2).a.length = s1.a.length
    rw [(add_cap s1 i2 x2).1, if_neg hguard]

/-- Witness for non-thrashing on the full one-element state. -/
theorem arrayDeque_resize_no_thrash_witness :
    Abs (⟨[some 1], 0, 1⟩ : ArrayDeque Nat) [1] ∧ 1 ≤ (⟨[some 1], 0, 1⟩ : ArrayDeque Nat).size ∧
      (∀ i x, i ≤ (⟨[some 1], 0, 1⟩ : ArrayDeque Nat).size →
        (⟨[some 1], 0, 1⟩ : ArrayDeque Nat).capacity <
          (⟨[some 1], 0, 1⟩ : ArrayDeque Nat).size + 1 →
        (¬ 3 * (((⟨[some 1], 0, 1⟩ : ArrayDeque Nat).add i x).size - 1) <
          ((⟨[some 1], 0, 1⟩ : ArrayDeque Nat).add i x).capacity) ∧
        ∀ i2, i2 < ((⟨[some 1], 0, 1⟩ : ArrayDeque Nat).add i x).size →
          ∃ r s2, ((⟨[some 1], 0, 1⟩ : ArrayDeque Nat).add i x).remove i2 = some (r, s2) ∧
            s2.capacity = ((⟨[some 1], 0, 1⟩ : ArrayDeque Nat).add i x).capacity) :=
  have habs : Abs (⟨[some 1], 0, 1⟩ : ArrayDeque Nat) [1] := absCheck_sound (by decide)
  ⟨habs, by decide,
    (arrayDeque_resize_no_thrash Nat _ [1] habs (by decide)).1⟩

/-- C9: the queue is FIFO: enqueueing the elements of any list into a
fresh ArrayQueue and then dequeueing one more time than the list's length
returns exactly the enqueued elements in insertion order followed by one
absent result; in particular enqueueing 1, 2, 3 dequeues 1, 2, 3, absent. -/
theorem arrayQueue_fifo :
    (∀ (T : Type) (xs : List T),
      dequeues (enqueueAll ArrayQueue.new xs) (xs.length + 1) = xs.map some ++ [none]) ∧
    dequeues (enqueueAll ArrayQueue.new [1, 2, 3]) 4 =
      [some 1, some 2, some 3, (none : Option Nat)] := by
  have hmain : ∀ (T : Type) (xs : List T),
      dequeues (enqueueAll ArrayQueue.new xs) (xs.length + 1) = xs.map some ++ [none] := by
    intro T xs
    have h := enqueueAll_abs xs ArrayQueue.new [] qabs_new
    rw [List.nil_append] at h
    exact dequeues_abs xs _ h
  refine ⟨hmain, ?_⟩
  have := hmain Nat [1, 2, 3]
  simpa using this

/-- C10: the positional List operations of ArrayQueue are unimplemented
stubs: for every state, index, and value, both panic unconditionally
(the `none` of the model), so ArrayQueue cannot be used through the
positional List interface. -/
theorem arrayQueue_positional_stubs_panic (T : Type) :
    (∀ (q : ArrayQueue T) (i : Nat) (x : T), q.listAdd i x = none) ∧
      (∀ (q : ArrayQueue T) (i : Nat), q.listRemove i = none) :=
  ⟨fun _ _ _ => rfl, fun _ _ => rfl⟩

end Ods
